import Mathlib

/-!
Verification development for the contour-scanner-and-trimmer geometry pipeline
(`contour_scanner_and_trimmer.py`).

Coordinates are embedded as exact rationals (the Python code computes with
floats; every claim settled here is about the branch structure and the exact
equality tests of the code, which the rational embedding reproduces).

Naming follows the source: `remove_duplicates`, `combine_nonintersects`,
`isect_segments`, option defaults from `add_arguments`, and the control flow of
`effect`.
-/

/-- A 2D point, as in the coordinate pairs handled by the extension. -/
abbrev Pt : Type := ℚ × ℚ

/-- A straight line segment: ordered pair (start, end), as built by
`line_from_segments` / the `[[M, [x1,y1]], [L, [x2,y2]]]` sub split lines. -/
abbrev Seg : Type := Pt × Pt

/-- Squared Euclidean distance between two points (exact, rational). -/
def sqDist (p q : Pt) : ℚ := (q.1 - p.1) ^ 2 + (q.2 - p.2) ^ 2

/-- Default of the `--flatness` option (`add_arguments`, default=0.1). -/
def flatness_default : ℚ := 1 / 10

/-- Default of the `--decimals` option (`add_arguments`, default=3). -/
def decimals_default : ℕ := 3

/-- Default of the `--snap_tolerance` option (`add_arguments`, default=0.1). -/
def snap_tolerance_default : ℚ := 1 / 10

/-- A path command as produced by `Path.to_arrays()`: a letter plus a parameter
list.  The code only ever inspects `M`, `L`, `C` and `Z` commands. -/
inductive PCmd : Type
  | M (p : Pt)
  | L (p : Pt)
  | C (c1 c2 p : Pt)
  | Z
deriving DecidableEq

/-- The parameter list `cmd[1]` of a command in the `to_arrays()` representation
(the code compares these lists directly, ignoring the command letter). -/
def cmdParams : PCmd → List ℚ
  | PCmd.M p => [p.1, p.2]
  | PCmd.L p => [p.1, p.2]
  | PCmd.C c1 c2 p => [c1.1, c1.2, c2.1, c2.2, p.1, p.2]
  | PCmd.Z => []

/-- Closure detection from `effect` (lines 552-558):
`isClosed = raw[-1][0] == 'Z' or (raw[-1][0] == 'L' and raw[0][1] == raw[-1][1])
or (raw[-1][0] == 'C' and raw[0][1] == [raw[-1][1][-2], raw[-1][1][-1]])`.
The comparisons are exact list equality on the command parameters. -/
def isClosedPath (raw : List PCmd) : Bool :=
  match raw.getLast?, raw.head? with
  | some PCmd.Z, _ => true
  | some (PCmd.L p), some c0 => decide (cmdParams c0 = [p.1, p.2])
  | some (PCmd.C _ _ p), some c0 => decide (cmdParams c0 = [p.1, p.2])
  | _, _ => false

example : isClosedPath [PCmd.M (0, 0), PCmd.L (1, 0), PCmd.L (0, 0)] = true := by decide
example : isClosedPath [PCmd.M (0, 0), PCmd.L (1, 0), PCmd.Z] = true := by decide
example : isClosedPath [PCmd.M (0, 0), PCmd.L (1, 0)] = false := by decide

/-- All unordered pairs of distinct positions of a list, as ordered pairs
(first element occurs earlier in the list). -/
def allPairs {α : Type} : List α → List (α × α)
  | [] => []
  | x :: xs => xs.map (fun y => (x, y)) ++ allPairs xs

/-- Cross product of the direction vectors of two segments (the denominator of
the line-line intersection formulas). -/
def segInterDen (s t : Seg) : ℚ :=
  (s.2.1 - s.1.1) * (t.2.2 - t.1.2) - (s.2.2 - s.1.2) * (t.2.1 - t.1.1)

/-- Parameter of the intersection point along segment `s`. -/
def segInterU (s t : Seg) : ℚ :=
  ((t.1.1 - s.1.1) * (t.2.2 - t.1.2) - (t.1.2 - s.1.2) * (t.2.1 - t.1.1)) / segInterDen s t

/-- Parameter of the intersection point along segment `t`. -/
def segInterV (s t : Seg) : ℚ :=
  ((t.1.1 - s.1.1) * (s.2.2 - s.1.2) - (t.1.2 - s.1.2) * (s.2.1 - s.1.1)) / segInterDen s t

/-- Linear interpolation along the segment from `A` to `B`. -/
def lerp (A B : Pt) (t : ℚ) : Pt :=
  (A.1 + t * (B.1 - A.1), A.2 + t * (B.2 - A.2))

/-- Squared length of a segment's direction vector. -/
def segLenSq (s : Seg) : ℚ := (s.2.1 - s.1.1) ^ 2 + (s.2.2 - s.1.2) ^ 2

/-- Parameter of the orthogonal projection of `p` onto the line of `s`
(for `p` on that line, `lerp s.1 s.2 (lineParam s p) = p`). -/
def lineParam (s : Seg) (p : Pt) : ℚ :=
  ((p.1 - s.1.1) * (s.2.1 - s.1.1) + (p.2 - s.1.2) * (s.2.2 - s.1.2)) / segLenSq s

/-- Cross product of `t.1 - s.1` with the direction of `s`: zero iff the start
of `t` lies on the line of `s` (with parallel directions this makes the whole
of `t` collinear with `s`). -/
def segCollinNum (s t : Seg) : ℚ :=
  (t.1.1 - s.1.1) * (s.2.2 - s.1.2) - (t.1.2 - s.1.2) * (s.2.1 - s.1.1)

/-- Lower end of the overlap of collinear `s` and `t`, as a parameter on `s`. -/
def overlapLo (s t : Seg) : ℚ :=
  max 0 (min (lineParam s t.1) (lineParam s t.2))

/-- Upper end of the overlap of collinear `s` and `t`, as a parameter on `s`. -/
def overlapHi (s t : Seg) : ℚ :=
  min 1 (max (lineParam s t.1) (lineParam s t.2))

/-- Modelled from the spec: the intersection points one pair of segments
contributes (the sweep `poly_point_isect` is imported by the source but its
module is not under src/).  Spec §4.3: non-parallel segments crossing within
both yield the single crossing point; a "collinear overlap" is "reported as
intersecting at their shared overlap endpoints, not silently skipped" — a
degenerate (single-point) overlap, as for collinear pieces meeting tip-to-tip,
is that single touching point; parallel non-collinear pairs and disjoint pairs
yield nothing; a zero-length `s` is degenerate input and contributes nothing
(spec §7). -/
def segPairPoints (s t : Seg) : List Pt :=
  if segInterDen s t = 0 then
    if segLenSq s = 0 then []
    else if segCollinNum s t = 0 then
      if overlapLo s t = overlapHi s t then [lerp s.1 s.2 (overlapLo s t)]
      else if overlapLo s t < overlapHi s t then
        [lerp s.1 s.2 (overlapLo s t), lerp s.1 s.2 (overlapHi s t)]
      else []
    else []
  else if 0 ≤ segInterU s t ∧ segInterU s t ≤ 1 ∧ 0 ≤ segInterV s t ∧ segInterV s t ≤ 1 then
    [lerp s.1 s.2 (segInterU s t)]
  else []

example : segPairPoints ((0, 0), (10, 0)) ((5, -5), (5, 5)) = [(5, 0)] := by
  norm_num [segPairPoints, segInterDen, segInterU, segInterV, lerp]
example : segPairPoints ((0, 0), (1, 0)) ((1, 0), (1, 1)) = [(1, 0)] := by
  norm_num [segPairPoints, segInterDen, segInterU, segInterV, lerp]
example : segPairPoints ((0, 0), (10, 0)) ((5, 0), (15, 0)) = [(5, 0), (10, 0)] := by
  norm_num [segPairPoints, segInterDen, segLenSq, segCollinNum, overlapLo, overlapHi,
    lineParam, lerp, max_def, min_def]
example : segPairPoints ((0, 0), (1, 0)) ((1, 0), (2, 0)) = [(1, 0)] := by
  norm_num [segPairPoints, segInterDen, segLenSq, segCollinNum, overlapLo, overlapHi,
    lineParam, lerp, max_def, min_def]

/-- Whether `p` is simultaneously an endpoint of `s` and an endpoint of `t`
(segments meeting tip-to-tip, as from adjacent polyline pieces). -/
def sharedEndpoint (p : Pt) (s t : Seg) : Bool :=
  decide ((p = s.1 ∨ p = s.2) ∧ (p = t.1 ∨ p = t.2))

/-- Modelled from the spec: `poly_point_isect.isect_segments(segments, validate)`
is imported by the source but its module is not under src/.  Spec §4.3:
the intersector returns all pairwise intersection points, collinear overlap
endpoints included; a shared endpoint of two segments "is excluded from the
intersection set when `validate` mode treats expected polyline-adjacency as
non-intersection", and reported when the policy is disabled.  The output set
is modelled pairwise (the spec's Bentley-Ottmann requirement is a complexity
demand, not a change of the output set). -/
def isect_segments (segs : List Seg) (validate : Bool) : List Pt :=
  ((allPairs segs).map fun st =>
    (segPairPoints st.1 st.2).filter fun p => !(validate && sharedEndpoint p st.1 st.2)).flatten

/-- Consecutive pairs of a list: `[a,b,c] ↦ [(a,b),(b,c)]`. -/
def consecPairs {α : Type} : List α → List (α × α)
  | a :: b :: rest => (a, b) :: consecPairs (b :: rest)
  | _ => []

/-- The cut parameters of a split, bracketed by the segment's own endpoints. -/
def splitParams (ts : List ℚ) : List ℚ := 0 :: ts ++ [1]

/-- Modelled from the spec: the splitter (`build_trim_line_group` delegates the
actual cutting to `shapely.ops.split` after `snap`, which is not under src/).
Spec §4.4: the segment from `A` to `B` is cut at each snapped intersection
point, ordered by distance from the segment's start; `ts` is the list of cut
positions as parameters along the segment.  The result is the ordered list of
trimmed sub-segments. -/
def trimPieces (A B : Pt) (ts : List ℚ) : List Seg :=
  (consecPairs (splitParams ts)).map fun uv => (lerp A B uv.1, lerp A B uv.2)

example : trimPieces (0, 0) (10, 0) [1/2] = [((0, 0), (5, 0)), ((5, 0), (10, 0))] := by
  norm_num [trimPieces, splitParams, consecPairs, lerp]

/-- One trim group of `remove_duplicates` (lines 297-313): keep an element iff
its path is not already in `totalTrimPaths` (exact equality `element.path not in
totalTrimPaths`, then `totalTrimPaths.append(element.path)`); a removed element
is deleted.  Returns the surviving elements and the grown seen-list. -/
def dedupGroup (seen : List Seg) : List Seg → List Seg × List Seg
  | [] => ([], seen)
  | e :: es =>
    if e ∈ seen then dedupGroup seen es
    else
      let r := dedupGroup (seen ++ [e]) es
      (e :: r.1, r.2)

/-- The loop of `remove_duplicates` over all trim groups, threading
`totalTrimPaths`; a group emptied by the deletions is itself deleted
(`if len(trimGroup) == 0: trimGroup.delete()`). -/
def dedupGroups (seen : List Seg) : List (List Seg) → List (List Seg)
  | [] => []
  | g :: gs =>
    let r := dedupGroup seen g
    let rest := dedupGroups r.2 gs
    if r.1 = [] then rest else r.1 :: rest

/-- `remove_duplicates(allTrimGroups)` (lines 297-313): with
`reverse_removal_order` the group list is traversed reversed
(`allTrimGroups = allTrimGroups[::-1]`), which changes which duplicate
survives; the deletions themselves are in-place, so the surviving elements
keep their document order (modelled by reversing back). -/
def remove_duplicates (reverse_removal_order : Bool) (gs : List (List Seg)) : List (List Seg) :=
  if reverse_removal_order then (dedupGroups [] gs.reverse).reverse
  else dedupGroups [] gs

/-- One trim line as far as its duplicate/intersection markings are concerned:
whether its id contains `intersectedVerb`, and whether the extra
`intersected='True'` attribute was set on it. -/
structure TrimLine : Type where
  hasVerbId : Bool
  intersectedAttrib : Bool
deriving DecidableEq

/-- One iteration of the marking loop of `build_trim_line_group`
(lines 270-293): element `j` is created; when `splitAt.count(trimGroupId) > 1`
(that is, `j ≥ 1`) the new element's id receives `intersectedVerb`, and the
previous element is renamed to carry `intersectedVerb` as well and gets
`intersected='True'`.  The accumulator holds the built elements in reverse
order (head = most recently built). -/
def trimStep (acc : List TrimLine) (j : ℕ) : List TrimLine :=
  if 1 ≤ j then
    match acc with
    | _ :: rest => ⟨true, false⟩ :: ⟨true, true⟩ :: rest
    | [] => [⟨true, false⟩]
  else ⟨false, false⟩ :: acc

/-- The markings of the `n` trim lines produced for one sub split line by
`build_trim_line_group`, in creation order. -/
def buildTrimMarks (n : ℕ) : List TrimLine :=
  ((List.range n).foldl trimStep []).reverse

example : buildTrimMarks 1 = [⟨false, false⟩] := by decide
example : buildTrimMarks 3 = [⟨true, true⟩, ⟨true, true⟩, ⟨true, false⟩] := by decide

/-- A trim line as seen by `combine_nonintersects`: its id either contains
`intersectedVerb` or not, and it carries its path data. -/
structure TrimElem : Type where
  hasVerbId : Bool
  path : List PCmd

/-- The collapsing loop of `combine_nonintersects` (lines 348-358): starting
from the second command, command `z` is kept iff its parameter list differs
from that of command `z-1` of the original concatenated data
(`if segData[z][1] != segData[z-1][1]`). -/
def combineGo (prev : PCmd) : List PCmd → List PCmd
  | [] => []
  | c :: cs => if cmdParams c = cmdParams prev then combineGo c cs else c :: combineGo c cs

/-- `combine_nonintersects` on one trim group (lines 329-358): concatenate the
paths of all elements whose id does not contain `intersectedVerb`, keep the
first command (`newPathData.append(segData[0])`), and filter the rest with the
adjacent-parameter comparison. -/
def combine_nonintersects (group : List TrimElem) : List PCmd :=
  match ((group.filter fun e => !e.hasVerbId).map TrimElem.path).flatten with
  | [] => []
  | c :: cs => c :: combineGo c cs

/-- A Python exception class, as relevant to the `try`/`except` of `effect`. -/
inductive PyExc : Type
  | assertionError
  | keyError
deriving DecidableEq

/-- Modelled from the spec: the outcome of the global
`isect_segments(allSubSplitLineStrings, validate=True)` call.  The sweep
(`poly_point_isect`, not under src/) either returns the intersection points
(here: their count) or raises; the source's own header comment (lines 30-32)
documents the characteristic sweep failure as a
`KeyError: 'Event(..., type=2, slope=...)'`, and the sweep's event-ordering
assertions raise `AssertionError`. -/
inductive SweepOutcome : Type
  | ok (npts : ℕ)
  | raises (e : PyExc)
deriving DecidableEq

/-- Result of the trimming phase of `effect` as the caller sees it. -/
inductive PhaseResult : Type
  | completed
  | reported (msg : String)
  | uncaught (e : PyExc)
deriving DecidableEq

/-- Outcome of the trimming phase of `effect`: whether the original path
elements were deleted, and how the phase ended. -/
structure TrimPhase : Type where
  originalsDeleted : Bool
  result : PhaseResult
deriving DecidableEq

/-- The caller-facing message of the `except AssertionError` handler
(lines 763-768), literally. -/
def sweepErrorIntro : String :=
  "Error calculating global intersections.\nSee https://github.com/ideasman42/isect_segments-bentley_ottmann.\n\nYou can try to fix this by:\n- reduce or raise the "

/-- Middle part of the handler message, between the two tunable names. -/
def sweepErrorMid : String :=
  " setting (default is 3 but try to set to 6 for example)\n- reduce or raise the "

/-- Final part of the handler message. -/
def sweepErrorSuffix : String :=
  " setting (if quantization option is used at all; default is 0.100)."

/-- The full handler message; the two quoted tunable names are spliced in so
that theorems can point at them. -/
def sweepErrorMessage : String :=
  sweepErrorIntro ++ "\x27decimals\x27" ++ sweepErrorMid ++ "\x27flatness\x27" ++ sweepErrorSuffix

/-- The trimming phase of `effect` (lines 719-769): everything is guarded by
`draw_trimmed`; the whole pass sits in a `try` whose only handler is
`except AssertionError` (any other exception propagates); trim groups are
built, deduplicated and combined only when `len(globalIntersectionPoints) > 0`,
and inside that branch the originals are deleted iff
`keep_original_after_trim is False`.  The handler prints the message and the
function returns; it does not re-run the sweep. -/
def effectTrimPhase (draw_trimmed keep_original_after_trim : Bool)
    (outcome : SweepOutcome) : TrimPhase :=
  if draw_trimmed then
    match outcome with
    | SweepOutcome.ok n =>
      if 0 < n then
        { originalsDeleted := !keep_original_after_trim, result := PhaseResult.completed }
      else { originalsDeleted := false, result := PhaseResult.completed }
    | SweepOutcome.raises PyExc.assertionError =>
      { originalsDeleted := false, result := PhaseResult.reported sweepErrorMessage }
    | SweepOutcome.raises e =>
      { originalsDeleted := false, result := PhaseResult.uncaught e }
  else { originalsDeleted := false, result := PhaseResult.completed }

/-- Result of checking a configuration value before use. -/
inductive ConfigCheck : Type
  | proceed
  | reject
deriving DecidableEq

/-- Modelled from the spec: "Invalid configuration (e.g., non-positive
tolerance): rejected immediately, fatal to the call, never silently clamped"
(spec §7), for the flattening tolerance. -/
def flatten_config_spec (flatness : ℚ) : ConfigCheck :=
  if flatness ≤ 0 then ConfigCheck.reject else ConfigCheck.proceed

/-- The validation the code performs on `so.flatness` before using it: none.
`add_arguments` (line 419) declares `--flatness` as a plain float and `effect`
(lines 578-596) uses it without any check, so every value proceeds. -/
def flatten_config_code (flatness : ℚ) : ConfigCheck :=
  ConfigCheck.proceed

/-- What `effect` does with a bezier subpath (lines 582-596): subdivide with
`so.flatness` iff `flattenbezier` and `isBezier`, else keep the path as is.
The flatness value is passed through unaltered. -/
inductive FlattenAction : Type
  | subdivide (flatness : ℚ)
  | keep
deriving DecidableEq

/-- The flattening decision of `effect`:
`if so.flattenbezier is True and isBezier is True: bezier.cspsubdiv(subPathData, so.flatness)`. -/
def effectFlattenAction (flattenbezier isBezier : Bool) (flatness : ℚ) : FlattenAction :=
  if flattenbezier && isBezier then FlattenAction.subdivide flatness else FlattenAction.keep

/-- C10: with trimming enabled (`draw_trimmed`) and `keep_original_after_trim`
disabled, the original path elements are deleted iff the global intersection
set is non-empty; in particular, when the sweep finds zero intersection points
every original path element remains in the document even though deletion of
originals was requested. -/
theorem C10_originals_kept_without_intersections :
    ∀ n : ℕ,
      (effectTrimPhase true false (SweepOutcome.ok n)).originalsDeleted = decide (0 < n) := by
  intro n
  cases n with
  | zero => rfl
  | succ m => simp [effectTrimPhase]

/-- C3: the sweep-line failure handling of `effect`.  The `except
AssertionError` handler reports the recoverable message naming the
`'decimals'` and `'flatness'` tunables and does not re-run the sweep, but the
sweep failure documented in the source's own header (a `KeyError` on an
`Event`, lines 30-32) is not an `AssertionError` and therefore propagates
uncaught: the program crashes on it, contradicting both the spec and the
source's own comment that such errors are to be fixed by adjusting the
tolerances. -/
theorem C3_keyerror_uncaught :
    (effectTrimPhase true false (SweepOutcome.raises PyExc.keyError)).result
        = PhaseResult.uncaught PyExc.keyError
      ∧ (effectTrimPhase true false (SweepOutcome.raises PyExc.assertionError)).result
        = PhaseResult.reported sweepErrorMessage
      ∧ sweepErrorMessage
        = sweepErrorIntro ++ "\x27decimals\x27" ++ sweepErrorMid ++ "\x27flatness\x27"
            ++ sweepErrorSuffix :=
  ⟨rfl, rfl, rfl⟩

/-- C5 counterexample: a non-positive flattening tolerance is NOT rejected.
At `flatness = -1` the code-side configuration check proceeds while the
spec-side check demands rejection, and the effect passes the invalid value
straight to the subdivision. -/
theorem C5_counterexample :
    flatten_config_code (-1) = ConfigCheck.proceed
      ∧ flatten_config_spec (-1) = ConfigCheck.reject
      ∧ effectFlattenAction true true (-1) = FlattenAction.subdivide (-1) := by
  refine ⟨rfl, ?_, rfl⟩
  norm_num [flatten_config_spec]

/-- C5 amended: the code never validates the flattening tolerance: every value
of `flatness` (non-positive included) proceeds, and the flattening call
receives it unclamped and unchanged. -/
theorem C5_no_validation (fl : ℚ) :
    flatten_config_code fl = ConfigCheck.proceed
      ∧ effectFlattenAction true true fl = FlattenAction.subdivide fl :=
  ⟨rfl, rfl⟩

/-- Parameter lists of two point-valued commands are equal iff the points are. -/
theorem ptParams_eq (a b : Pt) : ([a.1, a.2] = [b.1, b.2]) ↔ a = b := by
  constructor
  · intro h
    simp only [List.cons.injEq, and_true] at h
    exact Prod.ext h.1 h.2
  · intro h; rw [h]

/-- Closure detection on a subpath beginning with a move and ending with a
line: the code classifies it closed exactly when the endpoints are EQUAL. -/
theorem isClosedPath_M_L (p0 pn : Pt) (mid : List PCmd) :
    isClosedPath (PCmd.M p0 :: (mid ++ [PCmd.L pn])) = decide (pn = p0) := by
  have h1 : (PCmd.M p0 :: (mid ++ [PCmd.L pn])).getLast? = some (PCmd.L pn) := by
    rw [← List.cons_append, List.getLast?_concat]
  have h2 : (PCmd.M p0 :: (mid ++ [PCmd.L pn])).head? = some (PCmd.M p0) := rfl
  rw [isClosedPath, h1, h2]
  simp only [cmdParams]
  rw [decide_eq_decide]
  rw [ptParams_eq]
  exact eq_comm

/-- A path ending in an explicit close command is always classified closed. -/
theorem isClosedPath_Z (l : List PCmd) : isClosedPath (l ++ [PCmd.Z]) = true := by
  rw [isClosedPath, List.getLast?_concat]

/-- C6 counterexample: a subpath whose last point lies within the configured
tolerance of (but not exactly at) its first point is classified OPEN.  The
last point `(0, 1/10000)` is within the default snap tolerance `0.1` of the
first point `(0, 0)`, yet `isClosedPath` returns `false`. -/
theorem C6_counterexample :
    isClosedPath [PCmd.M (0, 0), PCmd.L (1, 0), PCmd.L (0, 1/10000)] = false
      ∧ sqDist (0, 0) (0, 1/10000) ≤ snap_tolerance_default ^ 2
      ∧ ((0, 1/10000) : Pt) ≠ (0, 0) := by
  refine ⟨?_, ?_, ?_⟩
  · have h := isClosedPath_M_L (0, 0) (0, 1/10000) [PCmd.L (1, 0)]
    rw [show (PCmd.M (0, 0) :: ([PCmd.L (1, 0)] ++ [PCmd.L (0, 1/10000)]))
          = [PCmd.M (0, 0), PCmd.L (1, 0), PCmd.L (0, 1/10000)] from rfl] at h
    rw [h, decide_eq_false_iff_not]
    intro hc
    have := congrArg Prod.snd hc
    norm_num at this
  · norm_num [sqDist, snap_tolerance_default]
  · intro hc
    have := congrArg Prod.snd hc
    norm_num at this

/-- C6 amended: closure detection is EXACT, not tolerance-based: a subpath
`M p0 … L pn` is classified closed iff `pn = p0` exactly (the code compares
the raw coordinate lists with `==`), and a subpath ending in an explicit `Z`
command is always classified closed. -/
theorem C6_closure_exact (p0 pn : Pt) (mid : List PCmd) (l : List PCmd) :
    isClosedPath (PCmd.M p0 :: (mid ++ [PCmd.L pn])) = decide (pn = p0)
      ∧ isClosedPath (l ++ [PCmd.Z]) = true :=
  ⟨isClosedPath_M_L p0 pn mid, isClosedPath_Z l⟩

/-- Deduplication of two singleton trim groups: the later element is removed
iff its path is EXACTLY equal to the earlier one. -/
theorem remove_duplicates_pair (s t : Seg) :
    remove_duplicates false [[s], [t]] = if t = s then [[s]] else [[s], [t]] := by
  by_cases h : t = s
  · subst h
    simp [remove_duplicates, dedupGroups, dedupGroup]
  · simp [remove_duplicates, dedupGroups, dedupGroup, h]

/-- C2 counterexample: the two reversed-orientation copies of the segment
(1,1)-(2,2) are NOT deduplicated: both survive `remove_duplicates`, because
the code compares path data exactly and `[M (1,1), L (2,2)]` differs from
`[M (2,2), L (1,1)]`. -/
theorem C2_counterexample :
    remove_duplicates false [[(((1 : ℚ), (1 : ℚ)), ((2 : ℚ), (2 : ℚ)))],
        [(((2 : ℚ), (2 : ℚ)), ((1 : ℚ), (1 : ℚ)))]]
      = [[(((1 : ℚ), (1 : ℚ)), ((2 : ℚ), (2 : ℚ)))],
        [(((2 : ℚ), (2 : ℚ)), ((1 : ℚ), (1 : ℚ)))]] := by
  rw [remove_duplicates_pair]
  rw [if_neg]
  intro hc
  have := congrArg (fun z : Seg => z.1.1) hc
  norm_num at this

/-- C2 amended: `remove_duplicates` treats two pieces as duplicates only when
their paths are exactly equal, same orientation included (no tolerance): the
later of two equal pieces is removed, while two pieces with identical
endpoints in reversed orientation are both kept. -/
theorem C2_exact_duplicates_only (a b : Pt) :
    remove_duplicates false [[(a, b)], [(a, b)]] = [[(a, b)]]
      ∧ (a ≠ b →
          remove_duplicates false [[(a, b)], [(b, a)]] = [[(a, b)], [(b, a)]]) := by
  constructor
  · rw [remove_duplicates_pair, if_pos rfl]
  · intro hab
    rw [remove_duplicates_pair, if_neg]
    intro hc
    exact hab (congrArg Prod.snd hc)

/-- Witness for the amended C2 theorem at concrete input (1,1)-(2,2). -/
theorem C2_exact_duplicates_only_witness :
    (((1 : ℚ), (1 : ℚ)) : Pt) ≠ ((2 : ℚ), (2 : ℚ))
      ∧ remove_duplicates false [[(((1 : ℚ), (1 : ℚ)), ((2 : ℚ), (2 : ℚ)))],
          [(((1 : ℚ), (1 : ℚ)), ((2 : ℚ), (2 : ℚ)))]]
        = [[(((1 : ℚ), (1 : ℚ)), ((2 : ℚ), (2 : ℚ)))]] := by
  have hne : (((1 : ℚ), (1 : ℚ)) : Pt) ≠ ((2 : ℚ), (2 : ℚ)) := by
    intro hc
    have := congrArg Prod.fst hc
    norm_num at this
  exact ⟨hne, (C2_exact_duplicates_only ((1 : ℚ), (1 : ℚ)) ((2 : ℚ), (2 : ℚ))).1⟩

/-- Closed form of the marking loop accumulator: with `n + 2` trim lines the
most recent line carries the verb in its id but no `intersected` attribute,
and every earlier line carries both. -/
theorem trimFold_closed (n : ℕ) :
    (List.range (n + 2)).foldl trimStep []
      = TrimLine.mk true false :: List.replicate (n + 1) (TrimLine.mk true true) := by
  induction n with
  | zero => decide
  | succ m ih =>
    have hr : List.range (m + 1 + 2) = List.range (m + 2) ++ [m + 2] := List.range_succ (m + 2)
    rw [hr, List.foldl_append, ih]
    simp [trimStep, List.replicate_succ]

/-- Closed form of `buildTrimMarks` for two or more pieces. -/
theorem buildTrimMarks_closed (n : ℕ) :
    buildTrimMarks (n + 2)
      = List.replicate (n + 1) (TrimLine.mk true true) ++ [TrimLine.mk true false] := by
  rw [buildTrimMarks, trimFold_closed, List.reverse_cons, List.reverse_replicate]

/-- C7: when a sub split line is cut into `n ≥ 2` pieces, every piece touches
a cut point and every piece carries the intersection marking in its id
(`intersectedVerb`, the marking `combine_nonintersects` keys on: the piece
ending at a cut gets it by the rename of `prevLine`, the piece starting at a
cut gets it at creation); when there is a single piece, no cut touches it and
it carries neither the verb nor the `intersected` attribute. -/
theorem C7_cut_adjacent_marked (n : ℕ) :
    (2 ≤ n → ∀ tl ∈ buildTrimMarks n, tl.hasVerbId = true)
      ∧ (∀ tl ∈ buildTrimMarks 1, tl.hasVerbId = false ∧ tl.intersectedAttrib = false) := by
  constructor
  · intro hn tl htl
    obtain ⟨m, rfl⟩ : ∃ m, n = m + 2 := ⟨n - 2, by omega⟩
    rw [buildTrimMarks_closed] at htl
    rcases List.mem_append.1 htl with h | h
    · rw [List.eq_of_mem_replicate h]
    · rw [List.mem_singleton.1 h]
  · intro tl htl
    have h1 : buildTrimMarks 1 = [TrimLine.mk false false] := by decide
    rw [h1, List.mem_singleton] at htl
    rw [htl]
    exact ⟨rfl, rfl⟩

/-- Witness for C7 at three pieces (two cuts) and at one piece (no cut). -/
theorem C7_cut_adjacent_marked_witness :
    (∀ tl ∈ buildTrimMarks 3, tl.hasVerbId = true)
      ∧ (∀ tl ∈ buildTrimMarks 1, tl.hasVerbId = false ∧ tl.intersectedAttrib = false) :=
  ⟨(C7_cut_adjacent_marked 3).1 (by decide), (C7_cut_adjacent_marked 1).2⟩

/-- The first command emitted by the collapsing loop differs in parameters
from the command it was compared against. -/
theorem combineGo_head_ne :
    ∀ (cs : List PCmd) (prev c : PCmd),
      (combineGo prev cs).head? = some c → cmdParams c ≠ cmdParams prev := by
  intro cs
  induction cs with
  | nil => intro prev c h; simp [combineGo] at h
  | cons a as ih =>
    intro prev c h
    by_cases hpa : cmdParams a = cmdParams prev
    · rw [combineGo, if_pos hpa] at h
      intro hc
      exact ih a c h (hc.trans hpa.symm)
    · rw [combineGo, if_neg hpa, List.head?_cons, Option.some.injEq] at h
      rw [← h]
      exact hpa

/-- The collapsing loop emits no two adjacent commands with equal parameters. -/
theorem combineGo_chain :
    ∀ (cs : List PCmd) (prev : PCmd),
      List.Chain' (fun a b => cmdParams a ≠ cmdParams b) (combineGo prev cs) := by
  intro cs
  induction cs with
  | nil => intro prev; simp [combineGo]
  | cons a as ih =>
    intro prev
    by_cases hpa : cmdParams a = cmdParams prev
    · rw [combineGo, if_pos hpa]
      exact ih a
    · rw [combineGo, if_neg hpa, List.chain'_cons']
      refine ⟨?_, ih a⟩
      intro b hb
      exact fun hc => combineGo_head_ne as a b hb hc.symm

/-- C9: the merged path produced by `combine_nonintersects` never repeats a
coordinate tuple in adjacent commands (no zero-length sub-segment, no repeated
point at a join); and at a join of two chained non-intersected pieces the
duplicated move command is collapsed, leaving the join point exactly once. -/
theorem C9_join_collapse (group : List TrimElem) (p q r : Pt)
    (hpq : cmdParams (PCmd.L q) ≠ cmdParams (PCmd.M p))
    (hqr : cmdParams (PCmd.L r) ≠ cmdParams (PCmd.M q)) :
    List.Chain' (fun a b => cmdParams a ≠ cmdParams b) (combine_nonintersects group)
      ∧ combine_nonintersects
          [TrimElem.mk false [PCmd.M p, PCmd.L q], TrimElem.mk false [PCmd.M q, PCmd.L r]]
        = [PCmd.M p, PCmd.L q, PCmd.L r] := by
  constructor
  · rw [combine_nonintersects]
    cases h : ((group.filter fun e => !e.hasVerbId).map TrimElem.path).flatten with
    | nil => simp
    | cons c cs =>
      rw [List.chain'_cons']
      refine ⟨?_, combineGo_chain cs c⟩
      intro b hb
      exact fun hc => combineGo_head_ne cs c b hb hc.symm
  · have hstep : combine_nonintersects
          [TrimElem.mk false [PCmd.M p, PCmd.L q], TrimElem.mk false [PCmd.M q, PCmd.L r]]
        = PCmd.M p :: combineGo (PCmd.M p) [PCmd.L q, PCmd.M q, PCmd.L r] := rfl
    have hqq : cmdParams (PCmd.M q) = cmdParams (PCmd.L q) := rfl
    rw [hstep, combineGo, if_neg hpq, combineGo, if_pos hqq, combineGo, if_neg hqr, combineGo]

/-- Witness for C9 on the two chained pieces (0,0)-(1,0) and (1,0)-(2,0). -/
theorem C9_join_collapse_witness :
    cmdParams (PCmd.L ((1 : ℚ), (0 : ℚ))) ≠ cmdParams (PCmd.M ((0 : ℚ), (0 : ℚ)))
      ∧ cmdParams (PCmd.L ((2 : ℚ), (0 : ℚ))) ≠ cmdParams (PCmd.M ((1 : ℚ), (0 : ℚ)))
      ∧ combine_nonintersects
          [TrimElem.mk false [PCmd.M ((0 : ℚ), (0 : ℚ)), PCmd.L ((1 : ℚ), (0 : ℚ))],
           TrimElem.mk false [PCmd.M ((1 : ℚ), (0 : ℚ)), PCmd.L ((2 : ℚ), (0 : ℚ))]]
        = [PCmd.M ((0 : ℚ), (0 : ℚ)), PCmd.L ((1 : ℚ), (0 : ℚ)), PCmd.L ((2 : ℚ), (0 : ℚ))] := by
  have h1 : cmdParams (PCmd.L ((1 : ℚ), (0 : ℚ))) ≠ cmdParams (PCmd.M ((0 : ℚ), (0 : ℚ))) := by
    simp only [cmdParams, ne_eq, List.cons.injEq]
    norm_num
  have h2 : cmdParams (PCmd.L ((2 : ℚ), (0 : ℚ))) ≠ cmdParams (PCmd.M ((1 : ℚ), (0 : ℚ))) := by
    simp only [cmdParams, ne_eq, List.cons.injEq]
    norm_num
  exact ⟨h1, h2, (C9_join_collapse [] _ _ _ h1 h2).2⟩

/-- The seen-list grows by exactly the kept elements of the group. -/
theorem dedupGroup_seen_eq :
    ∀ (g seen : List Seg), (dedupGroup seen g).2 = seen ++ (dedupGroup seen g).1 := by
  intro g
  induction g with
  | nil => intro seen; simp [dedupGroup]
  | cons e es ih =>
    intro seen
    by_cases he : e ∈ seen
    · rw [dedupGroup, if_pos he]
      exact ih seen
    · rw [dedupGroup, if_neg he]
      simp only
      rw [ih (seen ++ [e]), List.append_assoc, List.singleton_append]

/-- The kept elements of a group have no duplicates and avoid the seen-list. -/
theorem dedupGroup_nodup :
    ∀ (g seen : List Seg),
      (dedupGroup seen g).1.Nodup ∧ ∀ x ∈ (dedupGroup seen g).1, x ∉ seen := by
  intro g
  induction g with
  | nil => intro seen; simp [dedupGroup]
  | cons e es ih =>
    intro seen
    by_cases he : e ∈ seen
    · rw [dedupGroup, if_pos he]
      exact ⟨(ih seen).1, fun x hx => (ih seen).2 x hx⟩
    · rw [dedupGroup, if_neg he]
      simp only
      have h1 := (ih (seen ++ [e])).1
      have h2 := (ih (seen ++ [e])).2
      constructor
      · rw [List.nodup_cons]
        refine ⟨fun hc => ?_, h1⟩
        exact h2 e hc (List.mem_append_right seen (List.mem_singleton.2 rfl))
      · intro x hx
        rcases List.mem_cons.1 hx with h | h
        · rw [h]; exact he
        · exact fun hc => h2 x h (List.mem_append_left [e] hc)

/-- A group of pairwise-distinct elements disjoint from the seen-list passes
through `dedupGroup` unchanged. -/
theorem dedupGroup_of_fresh :
    ∀ (g seen : List Seg), g.Nodup → (∀ x ∈ g, x ∉ seen) →
      dedupGroup seen g = (g, seen ++ g) := by
  intro g
  induction g with
  | nil => intro seen _ _; simp [dedupGroup]
  | cons e es ih =>
    intro seen hnd hfresh
    have he : e ∉ seen := hfresh e (List.mem_cons_self e es)
    rw [dedupGroup, if_neg he]
    have hnd' := (List.nodup_cons.1 hnd).2
    have hee := (List.nodup_cons.1 hnd).1
    have hfresh' : ∀ x ∈ es, x ∉ seen ++ [e] := by
      intro x hx hc
      rcases List.mem_append.1 hc with h | h
      · exact hfresh x (List.mem_cons_of_mem e hx) h
      · rw [List.mem_singleton.1 h] at hx
        exact hee hx
    rw [ih (seen ++ [e]) hnd' hfresh']
    simp

/-- The flattened output of the group loop: groups contribute their kept
elements in order, whether or not the emptied groups are dropped. -/
theorem dedupGroups_flatten_cons (seen : List Seg) (g : List Seg) (gs : List (List Seg)) :
    (dedupGroups seen (g :: gs)).flatten
      = (dedupGroup seen g).1 ++ (dedupGroups (dedupGroup seen g).2 gs).flatten := by
  rw [dedupGroups]
  by_cases h : (dedupGroup seen g).1 = []
  · rw [if_pos h, h, List.nil_append]
  · rw [if_neg h, List.flatten_cons]

/-- All surviving elements are pairwise distinct and avoid the seen-list. -/
theorem dedupGroups_nodup :
    ∀ (gs : List (List Seg)) (seen : List Seg),
      (dedupGroups seen gs).flatten.Nodup
        ∧ ∀ x ∈ (dedupGroups seen gs).flatten, x ∉ seen := by
  intro gs
  induction gs with
  | nil => intro seen; simp [dedupGroups]
  | cons g gs ih =>
    intro seen
    rw [dedupGroups_flatten_cons]
    have hg := dedupGroup_nodup g seen
    have hseen := dedupGroup_seen_eq g seen
    have hrest := ih (dedupGroup seen g).2
    constructor
    · rw [List.nodup_append]
      refine ⟨hg.1, hrest.1, ?_⟩
      intro x hx hc
      have := hrest.2 x hc
      rw [hseen] at this
      exact this (List.mem_append_right _ hx)
    · intro x hx
      rcases List.mem_append.1 hx with h | h
      · exact hg.2 x h
      · intro hc
        have := hrest.2 x h
        rw [hseen] at this
        exact this (List.mem_append_left _ hc)

/-- The group loop never keeps an emptied group. -/
theorem dedupGroups_no_empty :
    ∀ (gs : List (List Seg)) (seen : List Seg) (g : List Seg),
      g ∈ dedupGroups seen gs → g ≠ [] := by
  intro gs
  induction gs with
  | nil => intro seen g hg; simp [dedupGroups] at hg
  | cons g0 gs ih =>
    intro seen g hg
    rw [dedupGroups] at hg
    by_cases h : (dedupGroup seen g0).1 = []
    · rw [if_pos h] at hg
      exact ih _ g hg
    · rw [if_neg h] at hg
      rcases List.mem_cons.1 hg with hh | hh
      · rw [hh]; exact h
      · exact ih _ g hh

/-- A collection of non-empty groups whose flattened elements are pairwise
distinct and avoid the seen-list passes through the group loop unchanged. -/
theorem dedupGroups_of_fresh :
    ∀ (gs : List (List Seg)) (seen : List Seg),
      gs.flatten.Nodup → (∀ x ∈ gs.flatten, x ∉ seen) → (∀ g ∈ gs, g ≠ []) →
      dedupGroups seen gs = gs := by
  intro gs
  induction gs with
  | nil => intro seen _ _ _; rfl
  | cons g gs ih =>
    intro seen hnd hfresh hne
    have hgnd : g.Nodup := (List.nodup_append.1 (by rw [← List.flatten_cons]; exact hnd)).1
    have hrestnd : gs.flatten.Nodup :=
      (List.nodup_append.1 (by rw [← List.flatten_cons]; exact hnd)).2.1
    have hdisj : g.Disjoint gs.flatten :=
      (List.nodup_append.1 (by rw [← List.flatten_cons]; exact hnd)).2.2
    have hgfresh : ∀ x ∈ g, x ∉ seen := by
      intro x hx
      exact hfresh x (by rw [List.flatten_cons]; exact List.mem_append_left _ hx)
    have heq := dedupGroup_of_fresh g seen hgnd hgfresh
    rw [dedupGroups, heq]
    simp only
    rw [if_neg (hne g (List.mem_cons_self g gs))]
    congr 1
    apply ih (seen ++ g) hrestnd
    · intro x hx hc
      rcases List.mem_append.1 hc with h | h
      · exact hfresh x (by rw [List.flatten_cons]; exact List.mem_append_right _ hx) h
      · exact hdisj h hx
    · intro g' hg'
      exact hne g' (List.mem_cons_of_mem g hg')

/-- One full pass of the group loop is idempotent. -/
theorem dedupGroups_idem (gs : List (List Seg)) :
    dedupGroups [] (dedupGroups [] gs) = dedupGroups [] gs := by
  apply dedupGroups_of_fresh
  · exact (dedupGroups_nodup gs []).1
  · intro x _ hc
    simp at hc
  · exact dedupGroups_no_empty gs []

/-- C8: `remove_duplicates` is idempotent: a second pass with the same order
policy removes nothing further and returns the first pass's output. -/
theorem C8_dedup_idempotent (reverse_removal_order : Bool) (gs : List (List Seg)) :
    remove_duplicates reverse_removal_order (remove_duplicates reverse_removal_order gs)
      = remove_duplicates reverse_removal_order gs := by
  cases reverse_removal_order with
  | false =>
    rw [remove_duplicates, remove_duplicates, if_neg (by simp), if_neg (by simp)]
    exact dedupGroups_idem gs
  | true =>
    rw [remove_duplicates, remove_duplicates, if_pos rfl, if_pos rfl, List.reverse_reverse]
    rw [dedupGroups_idem]

/-- Interpolation at parameter 0 is the start point. -/
theorem lerp_zero (A B : Pt) : lerp A B 0 = A := by
  rw [lerp]
  rw [zero_mul, zero_mul, add_zero, add_zero]

/-- Interpolation at parameter 1 is the end point. -/
theorem lerp_one (A B : Pt) : lerp A B 1 = B := by
  rw [lerp]
  rw [one_mul, one_mul, add_sub_cancel, add_sub_cancel]

/-- Adjacent trimmed pieces share their connecting point. -/
theorem consecPairs_map_chain (g : ℚ → Pt) :
    ∀ l : List ℚ,
      List.Chain' (fun s t : Seg => s.2 = t.1)
        ((consecPairs l).map fun uv => (g uv.1, g uv.2))
  | [] => by simp [consecPairs]
  | [a] => by simp [consecPairs]
  | a :: b :: rest => by
    rw [consecPairs, List.map_cons, List.chain'_cons']
    refine ⟨?_, consecPairs_map_chain g (b :: rest)⟩
    intro s hs
    cases rest with
    | nil => simp [consecPairs] at hs
    | cons c r =>
      rw [consecPairs, List.map_cons, List.head?_cons, Option.mem_def,
        Option.some.injEq] at hs
      rw [← hs]

/-- The last trimmed piece ends at the image of the last parameter. -/
theorem consecPairs_map_getLast (g : ℚ → Pt) :
    ∀ (l : List ℚ) (a b : ℚ),
      (((consecPairs (a :: (l ++ [b]))).map fun uv => (g uv.1, g uv.2)).getLast?).map Prod.snd
        = some (g b)
  | [], a, b => by simp [consecPairs]
  | c :: l', a, b => by
    have hcons : consecPairs (a :: ((c :: l') ++ [b]))
        = (a, c) :: consecPairs (c :: (l' ++ [b])) := rfl
    rw [hcons, List.map_cons]
    cases l' with
    | nil => simp [consecPairs]
    | cons d l'' =>
      have h2 : consecPairs (c :: ((d :: l'') ++ [b]))
          = (c, d) :: consecPairs (d :: (l'' ++ [b])) := rfl
      rw [h2, List.map_cons, List.getLast?_cons_cons]
      exact consecPairs_map_getLast g (d :: l'') c b

/-- Telescoping: the parameter spans of the pieces sum to the whole span. -/
theorem consecPairs_sub_sum :
    ∀ (l : List ℚ) (a b : ℚ),
      (((consecPairs (a :: (l ++ [b]))).map fun uv => uv.2 - uv.1).sum) = b - a
  | [], a, b => by simp [consecPairs]
  | c :: l', a, b => by
    rw [show a :: ((c :: l') ++ [b]) = a :: c :: (l' ++ [b]) from rfl]
    rw [consecPairs, List.map_cons, List.sum_cons]
    rw [show c :: (l' ++ [b]) = c :: (l' ++ [b]) from rfl]
    rw [consecPairs_sub_sum l' c b]
    ring

/-- The squared distance between two interpolated points is the squared
parameter difference times the squared length of the segment. -/
theorem sqDist_lerp (A B : Pt) (u v : ℚ) :
    sqDist (lerp A B u) (lerp A B v) = (v - u) ^ 2 * sqDist A B := by
  rw [sqDist, sqDist, lerp, lerp]
  ring

/-- The Euclidean length of a piece of the segment from `A` to `B` cut between
parameters `u ≤ v` is the parameter span times the segment's length. -/
theorem sqrt_sqDist_lerp (A B : Pt) (u v : ℚ) (huv : u ≤ v) :
    Real.sqrt ((sqDist (lerp A B u) (lerp A B v) : ℚ) : ℝ)
      = ((v - u : ℚ) : ℝ) * Real.sqrt ((sqDist A B : ℚ) : ℝ) := by
  have h0 : (0 : ℝ) ≤ (v : ℝ) - (u : ℝ) := by
    have := sub_nonneg.2 huv
    exact_mod_cast sub_nonneg.2 ((Rat.cast_le (K := ℝ)).2 huv)
  rw [sqDist_lerp]
  push_cast
  rw [Real.sqrt_mul (sq_nonneg _)]
  rw [Real.sqrt_sq h0]

/-- Sum of the Euclidean lengths of the pieces over a sorted parameter list. -/
theorem trim_len_sum (A B : Pt) :
    ∀ (l : List ℚ) (a b : ℚ),
      List.Chain' (· ≤ ·) (a :: (l ++ [b])) →
      (((consecPairs (a :: (l ++ [b]))).map fun uv =>
          Real.sqrt ((sqDist (lerp A B uv.1) (lerp A B uv.2) : ℚ) : ℝ)).sum)
        = ((b - a : ℚ) : ℝ) * Real.sqrt ((sqDist A B : ℚ) : ℝ)
  | [], a, b, h => by
    have hab : a ≤ b := (List.chain'_cons.1 h).1
    simp only [List.nil_append]
    have hone : consecPairs (a :: [b]) = [(a, b)] := rfl
    rw [hone, List.map_cons, List.map_nil, List.sum_cons, List.sum_nil, add_zero]
    rw [sqrt_sqDist_lerp A B a b hab]
  | c :: l', a, b, h => by
    rw [show a :: ((c :: l') ++ [b]) = a :: c :: (l' ++ [b]) from rfl] at *
    have hac : a ≤ c := (List.chain'_cons.1 h).1
    have htail : List.Chain' (· ≤ ·) (c :: (l' ++ [b])) := (List.chain'_cons.1 h).2
    rw [consecPairs, List.map_cons, List.sum_cons]
    rw [trim_len_sum A B l' c b htail]
    rw [sqrt_sqDist_lerp A B a c hac]
    push_cast
    ring

/-- For a sorted cut-parameter list within [0,1], the bracketed parameter list
is sorted as well. -/
theorem splitParams_chain (ts : List ℚ) (hchain : List.Chain' (· ≤ ·) ts)
    (hbound : ∀ t ∈ ts, 0 ≤ t ∧ t ≤ 1) :
    List.Chain' (· ≤ ·) (0 :: (ts ++ [1])) := by
  rw [List.chain'_cons']
  constructor
  · intro y hy
    cases ts with
    | nil =>
      rw [List.nil_append, List.head?_cons, Option.mem_def, Option.some.injEq] at hy
      rw [← hy]
      norm_num
    | cons t ts' =>
      rw [List.cons_append, List.head?_cons, Option.mem_def, Option.some.injEq] at hy
      rw [← hy]
      exact (hbound t (List.mem_cons_self t ts')).1
  · rw [List.chain'_append]
    refine ⟨hchain, by simp, ?_⟩
    intro x hx y hy
    have hx' : x ∈ ts := List.mem_of_mem_getLast? hx
    have hy1 : y = 1 := by
      rw [List.head?_cons, Option.mem_def, Option.some.injEq] at hy
      exact hy.symm
    rw [hy1]
    exact (hbound x hx').2

/-- C4: splitting the segment from `A` to `B` at a sorted list of cut
parameters within [0,1] is a lossless decomposition: the first piece starts at
`A`, the last piece ends at `B`, each piece begins exactly where the previous
one ends (no gaps, no overlaps), and the Euclidean lengths of the pieces sum
exactly to the length of the original segment. -/
theorem C4_roundtrip (A B : Pt) (ts : List ℚ)
    (hchain : List.Chain' (· ≤ ·) ts)
    (hbound : ∀ t ∈ ts, 0 ≤ t ∧ t ≤ 1) :
    (trimPieces A B ts).head?.map Prod.fst = some A
      ∧ (trimPieces A B ts).getLast?.map Prod.snd = some B
      ∧ List.Chain' (fun s t : Seg => s.2 = t.1) (trimPieces A B ts)
      ∧ ((trimPieces A B ts).map fun s => Real.sqrt ((sqDist s.1 s.2 : ℚ) : ℝ)).sum
          = Real.sqrt ((sqDist A B : ℚ) : ℝ) := by
  refine ⟨?_, ?_, ?_, ?_⟩
  · cases ts with
    | nil =>
      have h : (trimPieces A B []).head? = some (lerp A B 0, lerp A B 1) := rfl
      rw [h, Option.map_some', lerp_zero]
    | cons t ts' =>
      have h : (trimPieces A B (t :: ts')).head? = some (lerp A B 0, lerp A B t) := rfl
      rw [h, Option.map_some', lerp_zero]
  · have h := consecPairs_map_getLast (lerp A B) ts 0 1
    rw [lerp_one] at h
    exact h
  · exact consecPairs_map_chain (lerp A B) (splitParams ts)
  · have h := trim_len_sum A B ts 0 1 (splitParams_chain ts hchain hbound)
    norm_num at h
    rw [trimPieces, List.map_map]
    exact h

/-- Witness for C4: the segment (0,0)-(2,0) cut at its midpoint parameter. -/
theorem C4_roundtrip_witness :
    List.Chain' (· ≤ ·) [(1 : ℚ)/2]
      ∧ (∀ t ∈ [(1 : ℚ)/2], 0 ≤ t ∧ t ≤ 1)
      ∧ ((trimPieces (0, 0) (2, 0) [(1 : ℚ)/2]).head?.map Prod.fst = some ((0 : ℚ), (0 : ℚ))
          ∧ (trimPieces (0, 0) (2, 0) [(1 : ℚ)/2]).getLast?.map Prod.snd
              = some ((2 : ℚ), (0 : ℚ))
          ∧ List.Chain' (fun s t : Seg => s.2 = t.1) (trimPieces (0, 0) (2, 0) [(1 : ℚ)/2])
          ∧ ((trimPieces (0, 0) (2, 0) [(1 : ℚ)/2]).map fun s =>
                Real.sqrt ((sqDist s.1 s.2 : ℚ) : ℝ)).sum
              = Real.sqrt ((sqDist (0, 0) (2, 0) : ℚ) : ℝ)) := by
  have h1 : List.Chain' (· ≤ ·) [(1 : ℚ)/2] := by simp
  have h2 : ∀ t ∈ [(1 : ℚ)/2], 0 ≤ t ∧ t ≤ 1 := by norm_num
  exact ⟨h1, h2, C4_roundtrip (0, 0) (2, 0) [(1 : ℚ)/2] h1 h2⟩

/-- C1: for two consecutive pieces of the same contour that share only their
connecting vertex (the second piece starts where the first ends, and that
vertex is the pair's entire intersection — which covers both a corner, where
the pieces cross transversally at the vertex, and a collinear continuation,
where the overlap degenerates to the vertex), the vertex is NOT reported by
the intersector when the adjacency-exclusion policy (`validate`) is enabled,
and IS reported when the policy is disabled. -/
theorem C1_adjacency_exclusion (s t : Seg) (hconsec : t.1 = s.2)
    (htouch : segPairPoints s t = [s.2]) :
    s.2 ∉ isect_segments [s, t] true ∧ s.2 ∈ isect_segments [s, t] false := by
  have hshared : sharedEndpoint s.2 s t = true := by
    rw [sharedEndpoint, decide_eq_true_iff]
    exact ⟨Or.inr rfl, Or.inl hconsec.symm⟩
  have hunfold : ∀ v : Bool,
      isect_segments [s, t] v
        = (segPairPoints s t).filter fun p => !(v && sharedEndpoint p s t) := by
    intro v
    rw [isect_segments]
    have hpairs : allPairs [s, t] = [(s, t)] := rfl
    rw [hpairs, List.map_cons, List.map_nil, List.flatten_cons, List.flatten_nil,
      List.append_nil]
  constructor
  · rw [hunfold, htouch, List.filter_cons]
    simp only [hshared, Bool.and_self, Bool.not_true]
    rw [List.filter_nil]
    simp
  · rw [hunfold, htouch, List.filter_cons]
    simp only [Bool.false_and, Bool.not_false]
    rw [List.filter_nil]
    simp

/-- Witness for C1, exercised twice: at the corner made of (0,0)-(1,0) and
(1,0)-(1,1), and at the collinear continuation made of (0,0)-(1,0) and
(1,0)-(2,0); both pairs share exactly the vertex (1,0). -/
theorem C1_adjacency_exclusion_witness :
    (segPairPoints ((0, 0), (1, 0)) ((1, 0), (1, 1)) = [(1, 0)]
      ∧ ((1 : ℚ), (0 : ℚ)) ∉ isect_segments [((0, 0), (1, 0)), ((1, 0), (1, 1))] true
      ∧ ((1 : ℚ), (0 : ℚ)) ∈ isect_segments [((0, 0), (1, 0)), ((1, 0), (1, 1))] false)
      ∧ (segPairPoints ((0, 0), (1, 0)) ((1, 0), (2, 0)) = [(1, 0)]
      ∧ ((1 : ℚ), (0 : ℚ)) ∉ isect_segments [((0, 0), (1, 0)), ((1, 0), (2, 0))] true
      ∧ ((1 : ℚ), (0 : ℚ)) ∈ isect_segments [((0, 0), (1, 0)), ((1, 0), (2, 0))] false) := by
  have hcorner : segPairPoints ((0, 0), (1, 0)) ((1, 0), (1, 1)) = [(1, 0)] := by
    norm_num [segPairPoints, segInterDen, segInterU, segInterV, lerp]
  have hstraight : segPairPoints ((0, 0), (1, 0)) ((1, 0), (2, 0)) = [(1, 0)] := by
    norm_num [segPairPoints, segInterDen, segLenSq, segCollinNum, overlapLo, overlapHi,
      lineParam, lerp, max_def, min_def]
  have hc := C1_adjacency_exclusion ((0, 0), (1, 0)) ((1, 0), (1, 1)) rfl hcorner
  have hs := C1_adjacency_exclusion ((0, 0), (1, 0)) ((1, 0), (2, 0)) rfl hstraight
  exact ⟨⟨hcorner, hc.1, hc.2⟩, ⟨hstraight, hs.1, hs.2⟩⟩
